import Mathlib

/-!
Verification of the core of `src/utils.py` (CJK-Script-AI).

Python dictionaries (unique keys, insertion order) are embedded as
association lists `List (String × List String)`; dict membership and
subscripting are embedded via `List.lookup` (first match, which agrees
with dict lookup since dict keys are unique).  The numeric entries of
the encoded tensors are modelled as `ℚ`: the binarizers only ever
produce the integers 0 and 1, both exactly representable in `float32`,
and the only numeric operation the embedded code performs on them is
exact equality comparison, so no floating-point rounding is involved.
-/

namespace CJKScript

/-- Embedding of `create_eng_to_rads` (src/utils.py lines 55-74).
For each English word of `eng_to_kanji` (in key order) it starts from an
empty list and, for each kanji of the word's kanji sequence, when the
kanji has an entry in `kanji_to_rads`, appends each of that entry's
radicals unless already present. -/
def create_eng_to_rads (kanji_to_rads eng_to_kanji : List (String × List String)) :
    List (String × List String) :=
  eng_to_kanji.map fun p =>
    (p.1, p.2.foldl (fun acc kanji =>
      match kanji_to_rads.lookup kanji with
      | some rads => rads.foldl (fun a rad => if rad ∈ a then a else a ++ [rad]) acc
      | none => acc) [])

/-- One step of the radical-accumulating loop: append each element of `rs`
to `acc` unless already present. -/
def appendUnique (acc rs : List String) : List String :=
  rs.foldl (fun a rad => if rad ∈ a then a else a ++ [rad]) acc

/-- Keep the first occurrence of each string, in first-seen order. -/
def firstSeen (l : List String) : List String :=
  appendUnique [] l

/-- The concatenation, in order, of the radical lists of the kanji of `ks`
that are present in `kanji_to_rads` (absent kanji contribute nothing). -/
def presentRads (kanji_to_rads : List (String × List String)) : List String → List String
  | [] => []
  | k :: ks =>
      (match kanji_to_rads.lookup k with
       | some rads => rads
       | none => []) ++ presentRads kanji_to_rads ks

/-- Executable lexicographic comparison of character lists (by code
point), the comparison Python and numpy use on strings. -/
def lexLe : List Char → List Char → Bool
  | [], _ => true
  | _ :: _, [] => false
  | a :: as, b :: bs => if a < b then true else if b < a then false else lexLe as bs

/-- Executable `a ≤ b` on strings (lexicographic by code point). -/
def strLe (a b : String) : Bool :=
  lexLe a.data b.data

/-- The sorted list of the distinct strings of `l`, ascending in the
lexicographic (code-point) order of `String`.  This is `numpy.unique` /
Python `sorted(set(...))`, the class ordering both sklearn binarizers
use for their `classes_` attribute. -/
def sortedClasses (l : List String) : List String :=
  l.dedup.insertionSort fun a b => strLe a b

/-- The rows sklearn's `LabelBinarizer` produces once fitting succeeded
(so `y` is non-empty), per its documented behaviour: the fitted classes
are the sorted distinct labels; with three or more classes each label
becomes a one-hot row over the classes; with exactly two classes the
output collapses to a single 0/1 column indicating the second (larger)
class; with a single class the output is a single all-zero column.
Entries are the exact values 0 and 1 (`float32` holds both exactly). -/
def labelBinarizeRows (y : List String) : List (List ℚ) :=
  let classes := sortedClasses y
  if classes.length = 1 then y.map fun _ => [(0 : ℚ)]
  else if classes.length = 2 then
    y.map fun s => [if s = classes.getLastD "" then (1 : ℚ) else 0]
  else y.map fun s => classes.map fun c => if c = s then (1 : ℚ) else 0

/-- Model of sklearn `LabelBinarizer().fit_transform(y)` (the call at
src/utils.py line 47).  Fitting an empty label list raises
`ValueError("y has 0 samples")`, modelled as `Except.error`; otherwise
the 0/1 rows of `labelBinarizeRows` are returned. -/
def labelBinarize (y : List String) : Except String (List (List ℚ)) :=
  if y.isEmpty then Except.error "y has 0 samples"
  else Except.ok (labelBinarizeRows y)

/-- Model of sklearn `MultiLabelBinarizer().fit_transform` applied to one
row: the multi-hot indicator of `rs` over `classes`. -/
def multiHotRow (classes rs : List String) : List ℚ :=
  classes.map fun c => if c ∈ rs then (1 : ℚ) else 0

/-- Embedding of `dict_to_tensors` (src/utils.py lines 39-52).  It
one-hot/multi-hot encodes `eng_to_rad`'s keys and value lists with the
sklearn binarizers (modelled above), converts the integer 0/1 arrays to
exact `float32` tensors, and runs the `assert` of line 51 comparing the
two row counts.  `none` models a raised exception: either the
`ValueError` the LabelBinarizer call of line 47 raises on an empty
dictionary (before the assert is reached), or an `AssertionError` from
line 51.  A normal return is (input tensor, target tensor, English
vocabulary, radical vocabulary). -/
def dict_to_tensors (eng_to_rad : List (String × List String)) :
    Option (List (List ℚ) × List (List ℚ) × List String × List String) :=
  match labelBinarize (eng_to_rad.map Prod.fst) with
  | Except.error _ => none
  | Except.ok eng_tensor =>
      let eng_vocab := sortedClasses (eng_to_rad.map Prod.fst)
      let rad_vocab := sortedClasses ((eng_to_rad.map Prod.snd).foldl (· ++ ·) [])
      let rad_tensor := (eng_to_rad.map Prod.snd).map (multiHotRow rad_vocab)
      if eng_tensor.length = rad_tensor.length then
        some (eng_tensor, rad_tensor, eng_vocab, rad_vocab)
      else none

/-- A one-hot vector of dimension `n`: length `n`, exactly one entry
equal to 1, every entry either 1 or 0. -/
def isOneHot (n : Nat) (v : List ℚ) : Prop :=
  v.length = n ∧ v.count 1 = 1 ∧ ∀ x ∈ v, x = 1 ∨ x = 0

instance (n : Nat) (v : List ℚ) : Decidable (isOneHot n v) := by
  unfold isOneHot; infer_instance

/-- Model of the dict comprehension at src/utils.py line 17,
`{vocab: idx for idx, vocab in enumerate(eng_vocab)}`, queried at `w`:
for duplicated vocabulary entries the later index overwrites, so the
last matching index is returned; `none` models `w not in` the dict. -/
def word_to_idx (eng_vocab : List String) (w : String) : Option Nat :=
  ((eng_vocab.enum.filter fun p => p.2 == w).map Prod.fst).getLast?

/-- The scan loop of src/utils.py lines 21-24: return the first row
whose entry at `idx` equals 1.0; running out of rows raises the second
RuntimeError; `tens[idx]` on a too-short row raises an IndexError. -/
def findHotRow (idx : Nat) : List (List ℚ) → Except String (List ℚ)
  | [] => Except.error "Corresponding tensor for word was not found!"
  | t :: ts =>
      if h : idx < t.length then
        if t.get ⟨idx, h⟩ = 1 then Except.ok t else findHotRow idx ts
      else Except.error "IndexError"

/-- Embedding of `get_tensor_from_word` (src/utils.py lines 16-24);
`Except.error` models a raised `RuntimeError`. -/
def get_tensor_from_word (word : String) (eng_tens : List (List ℚ))
    (eng_vocab : List String) : Except String (List ℚ) :=
  match word_to_idx eng_vocab word with
  | none => Except.error "Word is not in vocabulary!"
  | some idx => findHotRow idx eng_tens

theorem appendUnique_append (acc xs ys : List String) :
    appendUnique acc (xs ++ ys) = appendUnique (appendUnique acc xs) ys := by
  simp [appendUnique, List.foldl_append]

theorem create_eng_to_rads_inner (ktr : List (String × List String))
    (ks : List String) (acc : List String) :
    ks.foldl (fun acc kanji =>
      match ktr.lookup kanji with
      | some rads => rads.foldl (fun a rad => if rad ∈ a then a else a ++ [rad]) acc
      | none => acc) acc = appendUnique acc (presentRads ktr ks) := by
  induction ks generalizing acc with
  | nil => simp [presentRads, appendUnique]
  | cons k ks ih =>
      simp only [List.foldl_cons, presentRads, appendUnique_append]
      cases h : ktr.lookup k with
      | none => simp [h, ih, appendUnique]
      | some rads => simp [h, ih, appendUnique]

theorem presentRads_eq_nil (ktr : List (String × List String)) (ks : List String)
    (h : ∀ k ∈ ks, ktr.lookup k = none) : presentRads ktr ks = [] := by
  induction ks with
  | nil => rfl
  | cons k ks ih =>
      simp only [presentRads, h k (by simp)]
      exact ih fun k hk => h k (by simp [hk])

theorem presentRads_filter (ktr : List (String × List String)) (ks : List String) :
    presentRads ktr (ks.filter fun k => (ktr.lookup k).isSome) = presentRads ktr ks := by
  induction ks with
  | nil => rfl
  | cons k ks ih =>
      cases h : ktr.lookup k with
      | none => simp [presentRads, h, List.filter_cons, ih]
      | some rads => simp [presentRads, h, List.filter_cons, ih]

theorem appendUnique_nodup (acc rs : List String) (h : acc.Nodup) :
    (appendUnique acc rs).Nodup := by
  induction rs generalizing acc with
  | nil => simpa [appendUnique] using h
  | cons r rs ih =>
      simp only [appendUnique, List.foldl_cons] at *
      by_cases hr : r ∈ acc
      · simpa [hr] using ih acc h
      · have : (acc ++ [r]).Nodup := by simp [List.nodup_append, h, hr]
        simpa [hr] using ih (acc ++ [r]) this

theorem create_eng_to_rads_eq (ktr etk : List (String × List String)) :
    create_eng_to_rads ktr etk
      = etk.map (fun p => (p.1, firstSeen (presentRads ktr p.2))) := by
  simp only [create_eng_to_rads, firstSeen]
  exact List.map_congr_left fun p _ => by
    rw [create_eng_to_rads_inner]

/-- C1.  `create_eng_to_rads` produces, for every English word, the
first-seen deduplication of the concatenated radical streams of its
present kanji, and on the literal example of the spec it yields
`{"forest": ["tree", "wood"]}`. -/
theorem create_eng_to_rads_firstSeen :
    (∀ ktr etk : List (String × List String),
      create_eng_to_rads ktr etk
        = etk.map (fun p => (p.1, firstSeen (presentRads ktr p.2)))) ∧
    create_eng_to_rads [("火", ["fire"]), ("木", ["tree", "wood"])] [("forest", ["木", "木"])]
      = [("forest", ["tree", "wood"])] :=
  ⟨create_eng_to_rads_eq, by decide⟩

/-- C2.  The output of `create_eng_to_rads` has exactly the key list of
`eng_to_kanji`; a word all of whose kanji lack radical entries is mapped
to the empty list rather than omitted; and on the spec's example, a word
with the single unknown kanji "?" maps to `[]`. -/
theorem create_eng_to_rads_keys :
    (∀ ktr etk : List (String × List String),
      (create_eng_to_rads ktr etk).map Prod.fst = etk.map Prod.fst) ∧
    (∀ ktr etk : List (String × List String), ∀ p ∈ etk,
      (∀ k ∈ p.2, ktr.lookup k = none) →
      (p.1, ([] : List String)) ∈ create_eng_to_rads ktr etk) ∧
    create_eng_to_rads [("火", ["fire"])] [("unknown", ["?"])] = [("unknown", [])] := by
  refine ⟨fun ktr etk => ?_, fun ktr etk p hp habs => ?_, by decide⟩
  · simp [create_eng_to_rads]
  · have hrads : presentRads ktr p.2 = [] := presentRads_eq_nil ktr p.2 habs
    have := (create_eng_to_rads_eq ktr etk)
    rw [this]
    exact List.mem_map.2 ⟨p, hp, by simp [hrads, firstSeen, appendUnique]⟩

theorem create_eng_to_rads_keys_witness :
    ("unknown", ([] : List String))
      ∈ create_eng_to_rads [("火", ["fire"])] [("unknown", ["?"])] :=
  create_eng_to_rads_keys.2.1 [("火", ["fire"])] [("unknown", ["?"])]
    ("unknown", ["?"]) (by decide) (by decide)

/-- C3.  Every radical list produced by `create_eng_to_rads` is free of
duplicates. -/
theorem create_eng_to_rads_nodup (ktr etk : List (String × List String)) :
    ∀ p ∈ create_eng_to_rads ktr etk, p.2.Nodup := by
  intro p hp
  rw [create_eng_to_rads_eq] at hp
  obtain ⟨q, _, rfl⟩ := List.mem_map.1 hp
  exact appendUnique_nodup [] _ List.nodup_nil

theorem create_eng_to_rads_nodup_witness :
    ("forest", ["tree", "wood"])
      ∈ create_eng_to_rads [("木", ["tree", "wood"])] [("forest", ["木", "木"])] ∧
    (["tree", "wood"] : List String).Nodup :=
  ⟨by decide,
   create_eng_to_rads_nodup [("木", ["tree", "wood"])] [("forest", ["木", "木"])]
     ("forest", ["tree", "wood"]) (by decide)⟩

/-- C9.  `create_eng_to_rads` is a total function (the embedding returns a
plain value: the source raises nothing), and a kanji absent from
`kanji_to_rads` is silently skipped: removing the absent kanji from every
word's kanji sequence does not change the result. -/
theorem create_eng_to_rads_skips_absent (ktr etk : List (String × List String)) :
    create_eng_to_rads ktr etk
      = create_eng_to_rads ktr
          (etk.map fun p => (p.1, p.2.filter fun k => (ktr.lookup k).isSome)) := by
  rw [create_eng_to_rads_eq, create_eng_to_rads_eq, List.map_map]
  refine List.map_congr_left fun p _ => ?_
  simp only [Function.comp]
  rw [presentRads_filter]

theorem lexLe_iff (as bs : List Char) :
    lexLe as bs = true ↔ ¬ List.Lex (· < ·) bs as := by
  induction as generalizing bs with
  | nil =>
      cases bs <;> simp [lexLe, List.Lex.not_nil_right]
  | cons a as ih =>
      cases bs with
      | nil => simp [lexLe, List.Lex.nil]
      | cons b bs =>
          simp only [lexLe]
          rcases lt_trichotomy a b with hab | hab | hab
          · simp only [hab, if_pos, true_iff]
            intro hlex
            cases hlex with
            | rel h => exact absurd hab (asymm h)
            | cons h => exact absurd hab (lt_irrefl _)
          · subst hab
            simp only [lt_irrefl, if_neg, not_false_iff, ite_self]
            rw [ih bs, List.Lex.cons_iff]
          · rw [if_neg (asymm hab), if_pos hab]
            simp only [Bool.false_eq_true, false_iff, not_not]
            exact List.Lex.rel hab

theorem strLe_iff (a b : String) : strLe a b = true ↔ a ≤ b := by
  rw [strLe, lexLe_iff]
  have h1 : (b < a) ↔ List.Lex (· < ·) b.data a.data := String.lt_iff_toList_lt
  rw [← h1]
  exact not_lt

theorem sortedClasses_perm (l : List String) : List.Perm (sortedClasses l) l.dedup :=
  List.perm_insertionSort _ _

theorem sortedClasses_nodup (l : List String) : (sortedClasses l).Nodup :=
  (sortedClasses_perm l).nodup_iff.mpr (List.nodup_dedup l)

theorem mem_sortedClasses {x : String} {l : List String} :
    x ∈ sortedClasses l ↔ x ∈ l := by
  rw [(sortedClasses_perm l).mem_iff, List.mem_dedup]

theorem sortedClasses_sorted (l : List String) :
    List.Sorted (· < ·) (sortedClasses l) := by
  haveI : IsTotal String fun a b => strLe a b = true :=
    ⟨fun a b => by rw [strLe_iff, strLe_iff]; exact le_total a b⟩
  haveI : IsTrans String fun a b => strLe a b = true :=
    ⟨fun a b c hab hbc => by
      rw [strLe_iff] at *
      exact le_trans hab hbc⟩
  have hle : List.Sorted (fun a b => strLe a b = true) (sortedClasses l) :=
    List.sorted_insertionSort _ l.dedup
  have hnd := sortedClasses_nodup l
  exact (hle.and hnd).imp fun hab => lt_of_le_of_ne ((strLe_iff _ _).mp hab.1) hab.2

theorem sortedClasses_length (l : List String) (h : l.Nodup) :
    (sortedClasses l).length = l.length := by
  rw [(sortedClasses_perm l).length_eq, List.dedup_eq_self.mpr h]

theorem sortedClasses_count (l : List String) (x : String) :
    (sortedClasses l).count x = if x ∈ l then 1 else 0 := by
  rw [(sortedClasses_perm l).count_eq, List.count_dedup]

theorem labelBinarizeRows_length (y : List String) :
    (labelBinarizeRows y).length = y.length := by
  simp only [labelBinarizeRows]
  split_ifs <;> simp

theorem labelBinarize_ok (y : List String) (h : y ≠ []) :
    labelBinarize y = Except.ok (labelBinarizeRows y) := by
  rw [labelBinarize, if_neg]
  simpa using h

theorem dict_to_tensors_eq (d : List (String × List String)) (hne : d ≠ []) :
    dict_to_tensors d
      = some (labelBinarizeRows (d.map Prod.fst),
              (d.map Prod.snd).map
                (multiHotRow (sortedClasses ((d.map Prod.snd).foldl (· ++ ·) []))),
              sortedClasses (d.map Prod.fst),
              sortedClasses ((d.map Prod.snd).foldl (· ++ ·) [])) := by
  have hkeys : d.map Prod.fst ≠ [] := by simpa using hne
  simp [dict_to_tensors, labelBinarize_ok _ hkeys, labelBinarizeRows_length]

theorem mem_foldl_append (L : List (List String)) (x : String) (init : List String) :
    x ∈ L.foldl (· ++ ·) init ↔ x ∈ init ∨ ∃ rs ∈ L, x ∈ rs := by
  induction L generalizing init with
  | nil => simp
  | cons rs L ih =>
      rw [List.foldl_cons, ih]
      simp [List.mem_append, or_assoc]

/-- C8.  The `assert` of line 51 is unreachable for every input
dictionary: on the empty dictionary the LabelBinarizer call of line 47
raises before the assert (so `dict_to_tensors` never returns normally
there); whenever that call returns, the asserted row-count equality
already holds; every normal result has input rows = target rows = number
of keys; and every non-empty dictionary does produce a normal result.  A
mismatch could therefore only ever surface as a raised exception
(`none`), never as a normal result. -/
theorem dict_to_tensors_row_counts (d : List (String × List String)) :
    (d = [] → dict_to_tensors d = none) ∧
    (∀ et, labelBinarize (d.map Prod.fst) = Except.ok et →
      et.length
        = ((d.map Prod.snd).map
            (multiHotRow (sortedClasses ((d.map Prod.snd).foldl (· ++ ·) [])))).length) ∧
    (∀ et rt ev rv, dict_to_tensors d = some (et, rt, ev, rv) →
      et.length = rt.length ∧ et.length = d.length ∧ rt.length = d.length) ∧
    (d ≠ [] → (dict_to_tensors d).isSome = true) := by
  refine ⟨?_, ?_, ?_, ?_⟩
  · rintro rfl
    rfl
  · intro et het
    have hkeys : d.map Prod.fst ≠ [] := by
      intro hk
      rw [hk] at het
      simp [labelBinarize] at het
    rw [labelBinarize_ok _ hkeys] at het
    injection het with het2
    subst het2
    simp [labelBinarizeRows_length]
  · intro et rt ev rv h
    by_cases hne : d = []
    · subst hne
      simp [dict_to_tensors, labelBinarize] at h
    · rw [dict_to_tensors_eq d hne] at h
      simp only [Option.some.injEq, Prod.mk.injEq] at h
      obtain ⟨h1, h2, -, -⟩ := h
      subst h1
      subst h2
      exact ⟨by simp [labelBinarizeRows_length], by simp [labelBinarizeRows_length], by simp⟩
  · intro hne
    rw [dict_to_tensors_eq d hne]
    rfl

theorem dict_to_tensors_row_counts_witness :
    (dict_to_tensors [("a", ["x"])]).isSome = true ∧ dict_to_tensors [] = none :=
  ⟨(dict_to_tensors_row_counts [("a", ["x"])]).2.2.2 (by decide),
   (dict_to_tensors_row_counts []).1 rfl⟩

/-- C10.  The English vocabulary returned by `dict_to_tensors` is the
set of keys of `eng_to_rad` sorted strictly ascending in `String`'s
lexicographic order, and the radical vocabulary is the set of radicals
occurring in any value list, likewise sorted. -/
theorem dict_to_tensors_vocab_sorted (d : List (String × List String))
    (hne : d ≠ []) (et rt : List (List ℚ)) (ev rv : List String)
    (h : dict_to_tensors d = some (et, rt, ev, rv)) :
    List.Sorted (· < ·) ev ∧ (∀ s, s ∈ ev ↔ s ∈ d.map Prod.fst) ∧
    List.Sorted (· < ·) rv ∧ (∀ s, s ∈ rv ↔ ∃ p ∈ d, s ∈ p.2) := by
  rw [dict_to_tensors_eq d hne] at h
  simp only [Option.some.injEq, Prod.mk.injEq] at h
  obtain ⟨-, -, h3, h4⟩ := h
  subst h3; subst h4
  refine ⟨sortedClasses_sorted _, fun s => mem_sortedClasses, sortedClasses_sorted _,
    fun s => ?_⟩
  rw [mem_sortedClasses, mem_foldl_append]
  constructor
  · rintro (h | ⟨rs, hrs, hs⟩)
    · simp at h
    · obtain ⟨p, hp, rfl⟩ := List.mem_map.1 hrs
      exact ⟨p, hp, hs⟩
  · rintro ⟨p, hp, hs⟩
    exact Or.inr ⟨p.2, List.mem_map.2 ⟨p, hp, rfl⟩, hs⟩

theorem getD_map_of_lt {α β : Type} (l : List α) (f : α → β) (i : Nat)
    (h : i < l.length) (d0 : β) (d1 : α) :
    (l.map f).getD i d0 = f (l.getD i d1) := by
  rw [List.getD_eq_getElem?_getD, List.getElem?_map, List.getElem?_eq_getElem h,
    List.getD_eq_getElem?_getD, List.getElem?_eq_getElem h]
  rfl

theorem getD_mem_of_lt {α : Type} (l : List α) (i : Nat) (h : i < l.length) (d : α) :
    l.getD i d ∈ l := by
  rw [List.getD_eq_getElem?_getD, List.getElem?_eq_getElem h]
  exact List.getElem_mem h

theorem getD_indexOf_self (l : List String) (a : String) (h : a ∈ l) :
    l.getD (l.indexOf a) "" = a := by
  rw [List.getD_eq_getElem?_getD,
    List.getElem?_eq_getElem (List.indexOf_lt_length.mpr h)]
  simp [List.getElem_indexOf]

theorem count_one_map_indicator (s : String) (cs : List String) :
    ((cs.map fun c => if c = s then (1 : ℚ) else 0).count 1) = cs.count s := by
  induction cs with
  | nil => rfl
  | cons c cs ih =>
      by_cases h : c = s
      · simp [List.count_cons, ih, h]
      · have h1 : ¬ ((0 : ℚ) = 1) := by norm_num
        simp [List.count_cons, ih, h, h1]

/-- C5.  Every entry of the target tensor is the multi-hot indicator:
entry `j` of row `i` is 1 exactly when the `j`-th radical of the radical
vocabulary occurs in word `i`'s radical list, and 0 otherwise. -/
theorem dict_to_tensors_multiHot (d : List (String × List String))
    (hne2 : d ≠ []) (et rt : List (List ℚ)) (ev rv : List String)
    (h : dict_to_tensors d = some (et, rt, ev, rv)) (i j : Nat)
    (hi : i < d.length) (hj : j < rv.length) :
    (((rt.getD i []).getD j 0 = 1) ↔ rv.getD j "" ∈ (d.getD i ("", [])).2) ∧
    ((rt.getD i []).getD j 0 = 1 ∨ (rt.getD i []).getD j 0 = 0) := by
  rw [dict_to_tensors_eq d hne2] at h
  simp only [Option.some.injEq, Prod.mk.injEq] at h
  obtain ⟨-, h2, -, h4⟩ := h
  have hi2 : i < (d.map Prod.snd).length := by simpa using hi
  have hrow : rt.getD i [] = multiHotRow rv ((d.map Prod.snd).getD i []) := by
    rw [← h2, ← h4]
    exact getD_map_of_lt _ _ _ hi2 _ _
  have hval : (d.map Prod.snd).getD i [] = (d.getD i ("", [])).2 :=
    getD_map_of_lt d Prod.snd i hi _ _
  rw [hrow, hval, multiHotRow, getD_map_of_lt rv _ j hj 0 ""]
  constructor
  · constructor
    · intro h1
      by_contra hc
      rw [if_neg hc] at h1
      norm_num at h1
    · intro hc
      rw [if_pos hc]
  · by_cases hc : rv.getD j "" ∈ (d.getD i ("", [])).2
    · rw [if_pos hc]
      exact Or.inl rfl
    · rw [if_neg hc]
      exact Or.inr rfl

theorem dict_to_tensors_multiHot_witness :
    (((([[(1 : ℚ), 1]] : List (List ℚ)).getD 0 []).getD 0 0 = 1)
        ↔ (["x", "y"] : List String).getD 0 "" ∈ ([("a", ["x", "y"])].getD 0 ("", [])).2) ∧
    ((([[(1 : ℚ), 1]] : List (List ℚ)).getD 0 []).getD 0 0 = 1
      ∨ (([[(1 : ℚ), 1]] : List (List ℚ)).getD 0 []).getD 0 0 = 0) :=
  dict_to_tensors_multiHot [("a", ["x", "y"])] (by decide)
    [[0]] [[1, 1]] ["a"] ["x", "y"] (by decide) 0 0 (by decide) (by decide)

/-- C4 as stated is false: with exactly two (or one) distinct keys,
sklearn's `LabelBinarizer` collapses to a single 0/1 column, so the
input vectors are not one-hot over the English vocabulary.  Here the
two-key dictionary yields rows `[0]` and `[1]` of length 1 for a
vocabulary of size 2, and row `[0]` has no entry equal to 1. -/
theorem dict_to_tensors_oneHot_counterexample :
    dict_to_tensors [("a", []), ("b", [])]
      = some ([[0], [1]], [[], []], ["a", "b"], []) ∧
    ¬ isOneHot ((["a", "b"] : List String).length) [(0 : ℚ)] :=
  ⟨by decide, by decide⟩

/-- C4 amended: for every `eng_to_rad` with at least three distinct
keys, every row of the input tensor is a one-hot vector of length equal
to the size of the English vocabulary. -/
theorem dict_to_tensors_oneHot (d : List (String × List String))
    (h3 : 3 ≤ (sortedClasses (d.map Prod.fst)).length)
    (et rt : List (List ℚ)) (ev rv : List String)
    (h : dict_to_tensors d = some (et, rt, ev, rv)) :
    ∀ v ∈ et, isOneHot ev.length v := by
  have hne : d ≠ [] := by
    rintro rfl
    simp [sortedClasses, List.insertionSort] at h3
  rw [dict_to_tensors_eq d hne] at h
  simp only [Option.some.injEq, Prod.mk.injEq] at h
  obtain ⟨h1, -, h3', -⟩ := h
  subst h1; subst h3'
  intro v hv
  simp only [labelBinarizeRows] at hv
  rw [if_neg (by omega), if_neg (by omega)] at hv
  obtain ⟨s, hs, rfl⟩ := List.mem_map.1 hv
  refine ⟨by simp, ?_, ?_⟩
  · rw [count_one_map_indicator, sortedClasses_count, if_pos hs]
  · intro x hx
    obtain ⟨c, -, rfl⟩ := List.mem_map.1 hx
    by_cases hcs : c = s
    · simp [hcs]
    · simp [hcs]

theorem dict_to_tensors_oneHot_witness :
    isOneHot ((["a", "b", "c"] : List String).length) [(1 : ℚ), 0, 0] :=
  dict_to_tensors_oneHot [("a", []), ("b", []), ("c", [])] (by decide)
    [[1, 0, 0], [0, 1, 0], [0, 0, 1]] [[], [], []] ["a", "b", "c"] [] (by decide)
    [(1 : ℚ), 0, 0] (by decide)

/-- C6 as stated is false: with exactly two keys the LabelBinarizer
collapse makes the word "a"'s input vector `[0]`, which has no nonzero
entry at all, so no index maps back to "a". -/
theorem dict_to_tensors_roundTrip_counterexample :
    (dict_to_tensors [("a", []), ("b", [])]).map
        (fun r => ((r.1.getD 0 []).count 1, r.2.2.1)) = some (0, ["a", "b"]) := by
  decide

/-- C6 amended: for every `eng_to_rad` with duplicate-free keys and at
least three keys, the input vector of word `i` has entries in {0, 1}
with exactly one entry equal to 1, and the English vocabulary at the
index of that entry is word `i` itself. -/
theorem dict_to_tensors_roundTrip (d : List (String × List String))
    (hnd : (d.map Prod.fst).Nodup) (h3 : 3 ≤ d.length)
    (et rt : List (List ℚ)) (ev rv : List String)
    (h : dict_to_tensors d = some (et, rt, ev, rv))
    (i : Nat) (hi : i < d.length) :
    (et.getD i []).count 1 = 1 ∧ (∀ x ∈ et.getD i [], x = 1 ∨ x = 0) ∧
    ∃ j, j < ev.length ∧ (et.getD i []).getD j 0 = 1 ∧
      ev.getD j "" = (d.map Prod.fst).getD i "" := by
  have hne : d ≠ [] := by
    rintro rfl
    simp at h3
  rw [dict_to_tensors_eq d hne] at h
  simp only [Option.some.injEq, Prod.mk.injEq] at h
  obtain ⟨h1, -, h3', -⟩ := h
  subst h1; subst h3'
  have hlen : (sortedClasses (d.map Prod.fst)).length = d.length := by
    rw [sortedClasses_length _ hnd, List.length_map]
  have hi2 : i < (d.map Prod.fst).length := by simpa using hi
  set s := (d.map Prod.fst).getD i "" with hs
  have hsmem : s ∈ d.map Prod.fst := getD_mem_of_lt _ _ hi2 _
  have hrow : (labelBinarizeRows (d.map Prod.fst)).getD i []
      = (sortedClasses (d.map Prod.fst)).map fun c => if c = s then (1 : ℚ) else 0 := by
    simp only [labelBinarizeRows]
    rw [if_neg (by omega), if_neg (by omega)]
    exact getD_map_of_lt _ _ _ hi2 _ _
  rw [hrow]
  have hsmem2 : s ∈ sortedClasses (d.map Prod.fst) := mem_sortedClasses.2 hsmem
  refine ⟨?_, ?_, ?_⟩
  · rw [count_one_map_indicator, sortedClasses_count, if_pos hsmem]
  · intro x hx
    obtain ⟨c, -, rfl⟩ := List.mem_map.1 hx
    by_cases hcs : c = s
    · simp [hcs]
    · simp [hcs]
  · refine ⟨(sortedClasses (d.map Prod.fst)).indexOf s, ?_, ?_, ?_⟩
    · exact List.indexOf_lt_length.mpr hsmem2
    · rw [getD_map_of_lt _ _ _ (List.indexOf_lt_length.mpr hsmem2) 0 "",
        getD_indexOf_self _ _ hsmem2, if_pos rfl]
    · exact getD_indexOf_self _ _ hsmem2

theorem dict_to_tensors_roundTrip_witness :
    (([[(1 : ℚ), 0, 0], [0, 1, 0], [0, 0, 1]] : List (List ℚ)).getD 0 []).count 1 = 1 :=
  (dict_to_tensors_roundTrip [("a", []), ("b", []), ("c", [])] (by decide) (by decide)
    [[1, 0, 0], [0, 1, 0], [0, 0, 1]] [[], [], []] ["a", "b", "c"] [] (by decide)
    0 (by decide)).1

theorem word_to_idx_eq_none (eng_vocab : List String) (w : String)
    (h : w ∉ eng_vocab) : word_to_idx eng_vocab w = none := by
  have hfil : (eng_vocab.enum.filter fun p => p.2 == w) = [] := by
    rw [List.filter_eq_nil_iff]
    rintro ⟨i, a⟩ hp
    have ha : a ∈ eng_vocab := List.snd_mem_of_mem_enum hp
    simp only [beq_iff_eq]
    rintro rfl
    exact h ha
  rw [word_to_idx, hfil]
  rfl

/-- C7.  For a word absent from a duplicate-free vocabulary,
`get_tensor_from_word` fails with the "not in vocabulary" error and
never returns a vector. -/
theorem get_tensor_from_word_notFound (word : String) (eng_tens : List (List ℚ))
    (eng_vocab : List String) (_hnd : eng_vocab.Nodup) (habs : word ∉ eng_vocab) :
    get_tensor_from_word word eng_tens eng_vocab
        = Except.error "Word is not in vocabulary!" ∧
    ∀ v, get_tensor_from_word word eng_tens eng_vocab ≠ Except.ok v := by
  have hidx := word_to_idx_eq_none eng_vocab word habs
  rw [get_tensor_from_word, hidx]
  exact ⟨rfl, fun v h => by simp at h⟩

theorem get_tensor_from_word_notFound_witness :
    get_tensor_from_word "z" [[(1 : ℚ)]] ["a"]
      = Except.error "Word is not in vocabulary!" :=
  (get_tensor_from_word_notFound "z" [[(1 : ℚ)]] ["a"] (by decide) (by decide)).1

theorem dict_to_tensors_vocab_sorted_witness :
    List.Sorted (· < ·) (["a"] : List String) ∧
    List.Sorted (· < ·) (["x", "y"] : List String) :=
  ⟨(dict_to_tensors_vocab_sorted [("a", ["x", "y"])] (by decide)
      [[0]] [[1, 1]] ["a"] ["x", "y"] (by decide)).1,
   (dict_to_tensors_vocab_sorted [("a", ["x", "y"])] (by decide)
      [[0]] [[1, 1]] ["a"] ["x", "y"] (by decide)).2.2.1⟩

end CJKScript
